import Mathlib

/-
  Verification development for the kioss / streamable stream-processing library.

  The embedded code comes from src/streamable/stream.py (the fluent builder layer:
  `Stream.__init__` and the builder methods `batch`, `catch`, `filter`, `flatten`,
  `foreach`, `limit`, `map`, `observe`, `slow`, together with the operator-node
  classes they construct).  The iterator runtime that materializes a pipeline
  (the module streamable/visitors/iteration.py) and the validator helpers
  (streamable/_util.py) are not part of the provided sources; where a claim
  depends on them they are modelled from the specification, and every such
  definition carries a doc comment starting with the words Modelled from the spec.
-/

namespace Streamable

/-! ## Source values and stream construction (src/streamable/stream.py, Stream.__init__) -/

/-- Kinds of Python values a caller may hand to the `Stream` constructor:
a zero-argument callable factory, a non-callable iterable (such as a range
or a list), or a scalar that is neither callable nor iterable (such as the int 1). -/
inductive PySource
  | callablef
  | iterable
  | scalar
deriving DecidableEq

/-- Python's builtin `callable` test restricted to the three source kinds. -/
def callableb : PySource → Bool
  | PySource.callablef => true
  | PySource.iterable => false
  | PySource.scalar => false

/-- Error kinds raised by the builder layer: Python `TypeError` for a
wrongly-typed argument and `ValueError` for an out-of-range argument. -/
inductive BuildErr
  | typeError
  | valueError
deriving DecidableEq

/-- Embedding of `Stream.__init__` (src/streamable/stream.py lines 39-48):
`if not callable(source): raise TypeError(...)`, otherwise the source is stored
on the new instance.  The check runs inside the constructor itself, so a
non-callable source makes construction fail with a `TypeError`. -/
def streamInit (s : PySource) : Except BuildErr PySource :=
  if callableb s then Except.ok s else Except.error BuildErr.typeError

/-! ## Builder parameters and validators -/

/-- A value passed as the `concurrency` argument: either a Python int or a
value of some other type (the tests pass the string literal for one). -/
inductive ConcArg
  | int (z : Int)
  | nonint
deriving DecidableEq

/-- A value passed as the `seconds` argument of `batch`: a finite number of
seconds or the default `float(inf)`. -/
inductive Seconds
  | fin (q : ℚ)
  | infty
deriving DecidableEq

/-- A value passed as the `count` argument of `limit`: a Python int or
`float(inf)`. -/
inductive CountArg
  | fin (z : Int)
  | infty
deriving DecidableEq

/-- Modelled from the spec: `validate_concurrency` lives in streamable/_util.py
which is missing from the sources.  Per the spec (concurrency must be an
integer greater than or equal to 1) and the test suite, a non-int raises
`TypeError` and an int below 1 raises `ValueError`. -/
def validate_concurrency : ConcArg → Except BuildErr Unit
  | ConcArg.nonint => Except.error BuildErr.typeError
  | ConcArg.int z => if z < 1 then Except.error BuildErr.valueError else Except.ok ()

/-- Modelled from the spec: `validate_batch_size` (streamable/_util.py, missing).
The spec requires size greater than or equal to 1; a smaller size raises `ValueError`. -/
def validate_batch_size (z : Int) : Except BuildErr Unit :=
  if z < 1 then Except.error BuildErr.valueError else Except.ok ()

/-- Modelled from the spec: `validate_batch_seconds` (streamable/_util.py, missing).
The spec requires the interval to be strictly positive or infinite; a
non-positive finite value raises `ValueError`. -/
def validate_batch_seconds : Seconds → Except BuildErr Unit
  | Seconds.infty => Except.ok ()
  | Seconds.fin q => if q ≤ 0 then Except.error BuildErr.valueError else Except.ok ()

/-- Modelled from the spec: `validate_limit_count` (streamable/_util.py, missing).
The spec and tests require a finite count greater than or equal to 0; a negative or
infinite count raises `ValueError`. -/
def validate_limit_count : CountArg → Except BuildErr Unit
  | CountArg.infty => Except.error BuildErr.valueError
  | CountArg.fin z => if z < 0 then Except.error BuildErr.valueError else Except.ok ()

/-- Modelled from the spec: `validate_slow_frequency` (streamable/_util.py,
missing).  The spec requires the per-second rate to be at least 1; a smaller
frequency raises `ValueError`. -/
def validate_slow_frequency (q : ℚ) : Except BuildErr Unit :=
  if q < 1 then Except.error BuildErr.valueError else Except.ok ()

/-! ## Operator nodes (the classes at the bottom of src/streamable/stream.py) -/

/-- The immutable operator-node chain built by the fluent methods: each
`DownStream` subclass stores its upstream and its validated parameters.
User-supplied functions (map functions, predicates) are opaque to the node
shape and are omitted here; only the parameters the builders validate appear. -/
inductive StreamNode
  | source (s : PySource)
  | batch (upstream : StreamNode) (size : Int) (seconds : Seconds)
  | catchNode (upstream : StreamNode) (raiseAtExhaustion : Bool)
  | filterNode (upstream : StreamNode)
  | flattenNode (upstream : StreamNode) (concurrency : ConcArg)
  | foreachNode (upstream : StreamNode) (concurrency : ConcArg)
  | limitNode (upstream : StreamNode) (count : CountArg)
  | mapNode (upstream : StreamNode) (concurrency : ConcArg)
  | observeNode (upstream : StreamNode)
  | slowNode (upstream : StreamNode) (frequency : ℚ)
deriving DecidableEq

/-- Embedding of `Stream.batch` (src lines 96-113): validate the size, then the
seconds, raising the first validation error, then return the new `BatchStream`
node. -/
def Stream.batch (self : StreamNode) (size : Int) (seconds : Seconds) :
    Except BuildErr StreamNode :=
  match validate_batch_size size with
  | Except.error e => Except.error e
  | Except.ok _ =>
    match validate_batch_seconds seconds with
    | Except.error e => Except.error e
    | Except.ok _ => Except.ok (StreamNode.batch self size seconds)

/-- Embedding of `Stream.limit` (src lines 249-260): validate the count, then
return the new `LimitStream` node. -/
def Stream.limit (self : StreamNode) (count : CountArg) : Except BuildErr StreamNode :=
  match validate_limit_count count with
  | Except.error e => Except.error e
  | Except.ok _ => Except.ok (StreamNode.limitNode self count)

/-- Embedding of `Stream.map` (src lines 262-277): validate the concurrency,
then return the new `MapStream` node. -/
def Stream.map (self : StreamNode) (concurrency : ConcArg) : Except BuildErr StreamNode :=
  match validate_concurrency concurrency with
  | Except.error e => Except.error e
  | Except.ok _ => Except.ok (StreamNode.mapNode self concurrency)

/-- Embedding of `Stream.foreach` (src lines 231-247): validate the concurrency,
then return the new `ForeachStream` node. -/
def Stream.foreach (self : StreamNode) (concurrency : ConcArg) : Except BuildErr StreamNode :=
  match validate_concurrency concurrency with
  | Except.error e => Except.error e
  | Except.ok _ => Except.ok (StreamNode.foreachNode self concurrency)

/-- Embedding of `Stream.flatten` (src lines 216-229): validate the concurrency,
then return the new `FlattenStream` node. -/
def Stream.flatten (self : StreamNode) (concurrency : ConcArg) : Except BuildErr StreamNode :=
  match validate_concurrency concurrency with
  | Except.error e => Except.error e
  | Except.ok _ => Except.ok (StreamNode.flattenNode self concurrency)

/-- Embedding of `Stream.slow` (src lines 299-310): the method takes a single
mandatory `frequency` argument, validates it, then returns the new `SlowStream`
node.  There is no second rate-control parameter in the signature. -/
def Stream.slow (self : StreamNode) (frequency : ℚ) : Except BuildErr StreamNode :=
  match validate_slow_frequency frequency with
  | Except.error e => Except.error e
  | Except.ok _ => Except.ok (StreamNode.slowNode self frequency)

/-- Embedding of `Stream.catch` (src lines 115-130): no parameter validation,
directly returns the new `CatchStream` node. -/
def Stream.catch (self : StreamNode) (raiseAtExhaustion : Bool) : Except BuildErr StreamNode :=
  Except.ok (StreamNode.catchNode self raiseAtExhaustion)

/-! ## The slow operator viewed over the configuration space the spec describes -/

/-- Acceptance of a throttle configuration as the specification words it:
two rate controls, a per-second cap of at least 1 and a strictly positive
minimum interval between yields, each optional but at least one of the two
required.  This definition follows the words of the spec and of claim C10,
to be compared against the source's `Stream.slow` signature. -/
def specThrottleAccepts (perSecond : Option ℚ) (interval : Option ℚ) : Bool :=
  (perSecond.isSome || interval.isSome)
    && perSecond.all (fun q => 1 ≤ q)
    && interval.all (fun q => 0 < q)

/-- The source `Stream.slow` builder viewed over the same two-control
configuration space.  The method signature in src/streamable/stream.py line 299
is `def slow(self, frequency: float)`: the per-second control is a single
mandatory positional argument and no interval parameter exists, so a
configuration is realizable by a call to `slow` exactly when the per-second
control is supplied alone, and such a call succeeds when the frequency
validates. -/
def slowAcceptsConfig (perSecond : Option ℚ) (interval : Option ℚ) : Bool :=
  match perSecond, interval with
  | some f, none => (Stream.slow (StreamNode.source PySource.callablef) f).toBool
  | _, _ => false

/-! ## Runtime of the limit operator (Modelled from the spec) -/

/-- Result of one call to `next` on a materialized iterator that yields plain
values: either an element is yielded or the end-of-iteration signal is raised. -/
inductive IterRes (α : Type _)
  | yield (a : α)
  | stop
deriving DecidableEq

/-- Modelled from the spec: the limit runtime (streamable/visitors/iteration.py
is missing from the sources).  State is the remaining upstream and the number
of elements already yielded.  A call to `next` raises end-of-iteration once
`count` elements have been yielded or the upstream is exhausted, and otherwise
yields the next upstream element; on end-of-iteration the state is left
untouched, making termination permanent. -/
def limitNext {α : Type _} (count : Nat) (s : List α × Nat) : IterRes α × (List α × Nat) :=
  if count ≤ s.2 then (IterRes.stop, s)
  else
    match s.1 with
    | [] => (IterRes.stop, s)
    | a :: rest => (IterRes.yield a, (rest, s.2 + 1))

/-- Modelled from the spec: the elements yielded by successive `next` calls of
the limit runtime starting from yield counter `n`, until the first
end-of-iteration.  Each clause mirrors one `next` call of `limitNext`. -/
def limitRunAux {α : Type _} (count : Nat) : List α → Nat → List α
  | [], _ => []
  | a :: rest, n => if count ≤ n then [] else a :: limitRunAux count rest (n + 1)

/-- Modelled from the spec: the complete output of the limit operator over a
finite upstream. -/
def limitRun {α : Type _} (count : Nat) (src : List α) : List α :=
  limitRunAux count src 0

/-! ## Runtime of the batch operator (Modelled from the spec) -/

/-- Modelled from the spec: the batch runtime (streamable/visitors/iteration.py
is missing from the sources) with the default single group and an infinite
interval, over an exception-free upstream.  The state is the currently open
group; each upstream element is appended to it, the group is yielded and closed
as soon as it reaches `size` elements, and at upstream exhaustion a non-empty
leftover group is yielded. -/
def batchRunAux {α : Type _} (size : Nat) : List α → List α → List (List α)
  | buf, [] => if buf.isEmpty then [] else [buf]
  | buf, a :: rest =>
    if size ≤ (buf ++ [a]).length then (buf ++ [a]) :: batchRunAux size [] rest
    else batchRunAux size (buf ++ [a]) rest

/-- Modelled from the spec: the complete output of the batch operator with
group size `size` and infinite interval over a finite upstream. -/
def batchRun {α : Type _} (size : Nat) (src : List α) : List (List α) :=
  batchRunAux size [] src

/-- Observable event at the consumer side of the batch operator over a fallible
upstream: either a group is yielded or an upstream exception is re-raised. -/
inductive BatchEvent (ε : Type _) (α : Type _)
  | grp (g : List α)
  | raiseExc (e : ε)
deriving DecidableEq

/-- Modelled from the spec: the batch runtime over an upstream whose pulls can
raise.  A successful pull behaves as in `batchRunAux`; a pull that raises first
makes the operator yield the currently open group when it is non-empty, then
re-raise the upstream exception on the following call to `next`, and then
resume grouping with a fresh empty group. -/
def batchRunExcAux {ε α : Type _} (size : Nat) :
    List α → List (Except ε α) → List (BatchEvent ε α)
  | buf, [] => if buf.isEmpty then [] else [BatchEvent.grp buf]
  | buf, Except.ok a :: rest =>
    if size ≤ (buf ++ [a]).length then BatchEvent.grp (buf ++ [a]) :: batchRunExcAux size [] rest
    else batchRunExcAux size (buf ++ [a]) rest
  | buf, Except.error e :: rest =>
    (if buf.isEmpty then [] else [BatchEvent.grp buf])
      ++ BatchEvent.raiseExc e :: batchRunExcAux size [] rest

/-- Modelled from the spec: the complete event trace of the batch operator over
a fallible upstream, starting with an empty open group. -/
def batchRunExc {ε α : Type _} (size : Nat) (ups : List (Except ε α)) :
    List (BatchEvent ε α) :=
  batchRunExcAux size [] ups

/-! ## Runtime of the map operator over a fallible function (Modelled from the spec) -/

/-- Observable event at the consumer side of a map operator whose function can
raise: either a transformed element is yielded or the exception of the
offending element is raised at its position. -/
inductive MapEvent (ε : Type _) (β : Type _)
  | yield (b : β)
  | raiseExc (e : ε)
deriving DecidableEq

/-- Modelled from the spec: the map runtime over a fallible element function
(streamable/visitors/iteration.py is missing from the sources).  Each call to
`next` pulls one upstream element and applies the function: a success is
yielded, a failure is raised to the consumer at that position, and iteration
continues with the remaining elements either way. -/
def mapRunE {α ε β : Type _} (fn : α → Except ε β) : List α → List (MapEvent ε β)
  | [] => []
  | a :: rest =>
    (match fn a with
      | Except.ok b => MapEvent.yield b
      | Except.error e => MapEvent.raiseExc e) :: mapRunE fn rest

/-! ## Runtime of the catch operator (Modelled from the spec) -/

deriving instance DecidableEq for Except

/-- State of a materialized catch operator: the remaining upstream pulls, the
first absorbed exception if any, and a flag recording that the iterator has
already signalled its definitive end (after which every `next` raises
end-of-iteration). -/
structure CatchState (ε : Type _) (α : Type _) where
  ups : List (Except ε α)
  firstCaught : Option ε
  done : Bool
deriving DecidableEq

/-- Result of one call to `next` on the catch operator: an element is yielded,
an exception is raised to the consumer, or end-of-iteration is signalled. -/
inductive CatchRes (ε : Type _) (α : Type _)
  | yield (a : α)
  | raiseExc (e : ε)
  | stop
deriving DecidableEq

/-- Keep the first absorbed exception: a later one is recorded only when no
earlier one is held. -/
def keepFirst {ε : Type _} (fc : Option ε) (e : ε) : Option ε :=
  match fc with
  | some x => some x
  | none => some e

/-- Modelled from the spec: one call to `next` on the catch runtime
(streamable/visitors/iteration.py is missing from the sources), for the
`CatchStream` node of src/streamable/stream.py whose parameters are an
exception predicate and the `raise_at_exhaustion` flag.  A value pull is
yielded; a pull raising an exception satisfying the predicate is absorbed (the
first such exception is remembered) and the call goes on to the next pull; a
non-matching exception is raised to the consumer and iteration continues; at
upstream exhaustion with `raise_at_exhaustion` set, the first absorbed
exception, if any, is raised exactly once, after which the iterator is done
and every further call signals end-of-iteration. -/
def catchNext {ε α : Type _} (p : ε → Bool) (raiseAtExhaustion : Bool) :
    List (Except ε α) → Option ε → Bool → CatchRes ε α × CatchState ε α
  | ups, fc, true => (CatchRes.stop, CatchState.mk ups fc true)
  | [], fc, false =>
    match raiseAtExhaustion, fc with
    | true, some e => (CatchRes.raiseExc e, CatchState.mk [] (some e) true)
    | true, none => (CatchRes.stop, CatchState.mk [] none true)
    | false, _ => (CatchRes.stop, CatchState.mk [] fc true)
  | Except.ok a :: rest, fc, false => (CatchRes.yield a, CatchState.mk rest fc false)
  | Except.error e :: rest, fc, false =>
    if p e then catchNext p raiseAtExhaustion rest (keepFirst fc e) false
    else (CatchRes.raiseExc e, CatchState.mk rest fc false)

/-- Measure used to show that repeatedly calling `catchNext` terminates: the
number of remaining upstream pulls, plus one when the iterator has not yet
signalled its definitive end. -/
def catchMeasure {ε α : Type _} (s : CatchState ε α) : Nat :=
  s.ups.length + (if s.done then 0 else 1)

theorem catchNext_measure {ε α : Type _} (p : ε → Bool) (fr : Bool)
    (ups : List (Except ε α)) (fc : Option ε) :
    (catchNext p fr ups fc false).1 = CatchRes.stop ∨
      catchMeasure (catchNext p fr ups fc false).2 < ups.length + 1 := by
  induction ups generalizing fc with
  | nil =>
    cases fr with
    | true =>
      cases fc with
      | some e => right; simp [catchNext, catchMeasure]
      | none => left; simp [catchNext]
    | false => left; simp [catchNext]
  | cons head rest ih =>
    cases head with
    | ok a => right; simp [catchNext, catchMeasure]
    | error e =>
      by_cases hpe : p e = true
      · rcases ih (keepFirst fc e) with h | h
        · left; simpa [catchNext, hpe] using h
        · right
          have : catchMeasure (catchNext p fr rest (keepFirst fc e) false).2 <
              rest.length + 1 + 1 := Nat.lt_succ_of_lt h
          simpa [catchNext, hpe] using this
      · right; simp [catchNext, hpe, catchMeasure]

/-- Modelled from the spec: the complete observable trace of the catch runtime,
obtained by calling `catchNext` until the first end-of-iteration signal. -/
def catchRun {ε α : Type _} (p : ε → Bool) (fr : Bool) (s : CatchState ε α) :
    List (CatchRes ε α) :=
  match hd : s.done with
  | true => []
  | false =>
    match hn : catchNext p fr s.ups s.firstCaught false with
    | (CatchRes.stop, _) => []
    | (CatchRes.yield a, s2) => CatchRes.yield a :: catchRun p fr s2
    | (CatchRes.raiseExc e, s2) => CatchRes.raiseExc e :: catchRun p fr s2
termination_by catchMeasure s
decreasing_by
  all_goals
    rcases catchNext_measure p fr s.ups s.firstCaught with h | h
    · rw [hn] at h; exact absurd h (by simp)
    · rw [hn] at h
      simpa [catchMeasure, hd] using h

/-- First exception carried by a list of upstream pulls, if any. -/
def firstErr {ε α : Type _} : List (Except ε α) → Option ε
  | [] => none
  | Except.ok _ :: rest => firstErr rest
  | Except.error e :: _ => some e

/-! ## Ordered concurrent map (Modelled from the spec) -/

/-- Modelled from the spec: admissibility of a worker-completion schedule for
concurrency `C`.  With an in-flight budget of `C`, when the j-th completion
happens at most `j + C` elements have been submitted, all of them with
sequence numbers below `j + C`; a schedule whose j-th completed sequence
number is `j + C` or more is not realizable by the runtime. -/
def admissibleB (C : Nat) (order : List Nat) : Bool :=
  order.enum.all fun ji => ji.2 < ji.1 + C

/-- Modelled from the spec: the completion stream of the ordered concurrent map
runtime.  Workers take `(seq, element)` pairs in submission order and place
`(seq, result)` pairs on the output side in the order given by the schedule
`order` of sequence numbers. -/
def completionsOf {α β : Type _} (f : α → β) (src : List α) (order : List Nat) :
    List (Nat × β) :=
  order.filterMap fun i => (src.get? i).map fun a => (i, f a)

/-- Modelled from the spec: ordered delivery through the reorder buffer keyed
by sequence number.  The k-th result yielded downstream must have sequence
number k, so the k-th output is the completion carrying sequence number k. -/
def deliverSeq {β : Type _} (n : Nat) (cs : List (Nat × β)) : List β :=
  (List.range n).filterMap fun k => (cs.find? fun pr => pr.1 == k).map Prod.snd

/-- Modelled from the spec: the complete output of the ordered concurrent map
operator with concurrency `C` under the worker-completion schedule `order`.
Schedules that are not realizable with concurrency `C`, or a concurrency below
1, produce no run. -/
def orderedConcMap {α β : Type _} (f : α → β) (C : Nat) (src : List α)
    (order : List Nat) : Option (List β) :=
  if 1 ≤ C ∧ admissibleB C order then
    some (deliverSeq src.length (completionsOf f src order))
  else none

/-! ## Demand-driven pulling of concurrent operators (Modelled from the spec) -/

/-- Counters of a materialized concurrent operator: how many elements were
pulled from upstream, how many results were delivered downstream, and how many
times the consumer has called `next`. -/
structure PoolState where
  pulled : Nat
  delivered : Nat
  nextCalls : Nat
deriving DecidableEq

/-- Modelled from the spec: the states reachable by the concurrent-operator
runtime with concurrency `C` and prefetch budget `C`
(streamable/visitors/iteration.py is missing from the sources).  The consumer
may call `next` at any time; the puller takes one upstream element only when
the consumer has called `next` at least once and fewer than `C` pulled
elements are still undelivered; a result is delivered only when one is
outstanding and the consumer has an unanswered `next` call. -/
inductive PoolReachable (C : Nat) : PoolState → Prop
  | init : PoolReachable C (PoolState.mk 0 0 0)
  | callNext {p d n : Nat} : PoolReachable C (PoolState.mk p d n) →
      PoolReachable C (PoolState.mk p d (n + 1))
  | pull {p d n : Nat} : PoolReachable C (PoolState.mk p d n) →
      1 ≤ n → p < d + C → PoolReachable C (PoolState.mk (p + 1) d n)
  | deliver {p d n : Nat} : PoolReachable C (PoolState.mk p d n) →
      d < p → d < n → PoolReachable C (PoolState.mk p (d + 1) n)

/-! ## Spec-side parameter ranges (following the words of the claims) -/

/-- Concurrency values claim C9 calls in range: an integer of at least 1. -/
def specConcurrencyInRange : ConcArg → Prop
  | ConcArg.int z => 1 ≤ z
  | ConcArg.nonint => False

/-- Batch interval values claim C9 calls in range: strictly positive seconds
or the infinite default. -/
def specSecondsInRange : Seconds → Prop
  | Seconds.fin q => 0 < q
  | Seconds.infty => True

/-- Limit counts claim C9 calls in range: a finite non-negative integer. -/
def specCountInRange : CountArg → Prop
  | CountArg.fin z => 0 ≤ z
  | CountArg.infty => False

theorem validate_concurrency_ok (c : ConcArg) :
    validate_concurrency c = Except.ok () ↔ specConcurrencyInRange c := by
  cases c with
  | nonint => simp [validate_concurrency, specConcurrencyInRange]
  | int z =>
    by_cases h : z < 1
    · simp [validate_concurrency, specConcurrencyInRange, h]
      try omega
    · simp [validate_concurrency, specConcurrencyInRange, h]
      try omega

theorem validate_batch_size_ok (z : Int) :
    validate_batch_size z = Except.ok () ↔ 1 ≤ z := by
  by_cases h : z < 1
  · simp [validate_batch_size, h]
    try omega
  · simp [validate_batch_size, h]
    try omega

theorem validate_batch_seconds_ok (s : Seconds) :
    validate_batch_seconds s = Except.ok () ↔ specSecondsInRange s := by
  cases s with
  | infty => simp [validate_batch_seconds, specSecondsInRange]
  | fin q =>
    by_cases h : q ≤ 0
    · simp [validate_batch_seconds, specSecondsInRange, h]
      try exact not_lt.mpr h
    · simp [validate_batch_seconds, specSecondsInRange, h]
      try exact not_le.mp h

theorem validate_limit_count_ok (c : CountArg) :
    validate_limit_count c = Except.ok () ↔ specCountInRange c := by
  cases c with
  | infty => simp [validate_limit_count, specCountInRange]
  | fin z =>
    by_cases h : z < 0
    · simp [validate_limit_count, specCountInRange, h]
      try omega
    · simp [validate_limit_count, specCountInRange, h]
      try omega

theorem validate_slow_frequency_ok (q : ℚ) :
    validate_slow_frequency q = Except.ok () ↔ 1 ≤ q := by
  by_cases h : q < 1
  · simp [validate_slow_frequency, h]
    try exact not_le.mpr h
  · simp [validate_slow_frequency, h]
    try exact not_lt.mp h

/-! ## Theorems -/

/-- C8 counterexample: the claim states that a non-callable, non-iterable
source value leaves construction of the Stream unaffected, the rejection
happening at iteration time; but for the concrete scalar source the embedded
constructor itself fails, so construction does not succeed. -/
theorem C8_counterexample : ¬ ((streamInit PySource.scalar).toBool = true) := by
  decide

/-- C8 (amended): a source value that is not callable is rejected eagerly by
the Stream constructor itself with a TypeError, so construction fails and
iteration is never reached; a callable factory is accepted by the
constructor. -/
theorem C8_source_rejected_at_construction (s : PySource) :
    (callableb s = false → streamInit s = Except.error BuildErr.typeError)
    ∧ (callableb s = true → streamInit s = Except.ok s) := by
  constructor <;> intro h <;> simp [streamInit, h]

/-- C8 witness: the scalar source is not callable and its construction fails
with a TypeError. -/
theorem C8_witness :
    callableb PySource.scalar = false
    ∧ streamInit PySource.scalar = Except.error BuildErr.typeError :=
  ⟨rfl, (C8_source_rejected_at_construction PySource.scalar).1 rfl⟩

/-- C10 counterexample: the claim states that each of the two rate controls is
optional, so the operator accepts a configuration with the minimum interval
alone; the spec-side acceptance indeed admits the interval-only configuration,
but the source slow builder, whose signature has a single mandatory frequency
parameter and no interval parameter, does not. -/
theorem C10_counterexample :
    specThrottleAccepts none (some 1) = true
    ∧ slowAcceptsConfig none (some 1) = false := by
  constructor <;> rfl

/-- C10 (amended): the slow operator of the source exposes a single rate
control, a mandatory per-second frequency validated to be at least 1; there is
no independent minimum-interval control, so over the two-control configuration
space of the spec exactly the frequency-only configurations with a valid
frequency are accepted. -/
theorem C10_slow_single_control (ps iv : Option ℚ) :
    slowAcceptsConfig ps iv = true ↔ ∃ f, ps = some f ∧ 1 ≤ f ∧ iv = none := by
  cases ps with
  | none => simp [slowAcceptsConfig]
  | some f =>
    cases iv with
    | none =>
      by_cases h : f < 1
      · simp [slowAcceptsConfig, Stream.slow, validate_slow_frequency, h, Except.toBool,
          not_le.mpr h]
      · simp [slowAcceptsConfig, Stream.slow, validate_slow_frequency, h, Except.toBool,
          not_lt.mp h]
    | some q => simp [slowAcceptsConfig]

/-- C10 witness: the frequency-only configuration with frequency 2 is accepted
by the source slow builder. -/
theorem C10_witness : slowAcceptsConfig (some 2) none = true :=
  (C10_slow_single_control (some 2) none).mpr ⟨2, rfl, by norm_num, rfl⟩

/-- C9: every builder validates its parameters eagerly at the builder call
itself: an out-of-range parameter makes the call return the parameter error
and no node is built, while in-range parameters make the call return the new
immutable stream node carrying exactly those parameters.  The outcome is a
pure function of the parameters; no iteration of the stream is involved. -/
theorem C9_builders_validate_eagerly (up : StreamNode) (c : ConcArg) (size : Int)
    (secs : Seconds) (count : CountArg) (freq : ℚ) :
    (Stream.map up c = Except.ok (StreamNode.mapNode up c) ↔ specConcurrencyInRange c)
    ∧ (Stream.foreach up c = Except.ok (StreamNode.foreachNode up c) ↔ specConcurrencyInRange c)
    ∧ (Stream.flatten up c = Except.ok (StreamNode.flattenNode up c) ↔ specConcurrencyInRange c)
    ∧ (Stream.batch up size secs = Except.ok (StreamNode.batch up size secs) ↔
        1 ≤ size ∧ specSecondsInRange secs)
    ∧ (Stream.limit up count = Except.ok (StreamNode.limitNode up count) ↔ specCountInRange count)
    ∧ (Stream.slow up freq = Except.ok (StreamNode.slowNode up freq) ↔ 1 ≤ freq)
    ∧ (¬ specConcurrencyInRange c → ∃ err, Stream.map up c = Except.error err)
    ∧ (¬ (1 ≤ size ∧ specSecondsInRange secs) → ∃ err, Stream.batch up size secs = Except.error err)
    ∧ (¬ specCountInRange count → ∃ err, Stream.limit up count = Except.error err)
    ∧ (¬ 1 ≤ freq → ∃ err, Stream.slow up freq = Except.error err) := by
  refine ⟨?_, ?_, ?_, ?_, ?_, ?_, ?_, ?_, ?_, ?_⟩
  · cases hv : validate_concurrency c with
    | error e =>
      simp only [Stream.map, hv]
      constructor
      · intro hx; exact absurd hx (by simp)
      · intro hc
        rw [(validate_concurrency_ok c).mpr hc] at hv
        exact Except.noConfusion hv
    | ok u =>
      simp only [Stream.map, hv]
      simpa using (validate_concurrency_ok c).mp (by rw [hv])
  · cases hv : validate_concurrency c with
    | error e =>
      simp only [Stream.foreach, hv]
      constructor
      · intro hx; exact absurd hx (by simp)
      · intro hc
        rw [(validate_concurrency_ok c).mpr hc] at hv
        exact Except.noConfusion hv
    | ok u =>
      simp only [Stream.foreach, hv]
      simpa using (validate_concurrency_ok c).mp (by rw [hv])
  · cases hv : validate_concurrency c with
    | error e =>
      simp only [Stream.flatten, hv]
      constructor
      · intro hx; exact absurd hx (by simp)
      · intro hc
        rw [(validate_concurrency_ok c).mpr hc] at hv
        exact Except.noConfusion hv
    | ok u =>
      simp only [Stream.flatten, hv]
      simpa using (validate_concurrency_ok c).mp (by rw [hv])
  · cases hv : validate_batch_size size with
    | error e =>
      simp only [Stream.batch, hv]
      constructor
      · intro hx; exact absurd hx (by simp)
      · intro hc
        rw [(validate_batch_size_ok size).mpr hc.1] at hv
        exact Except.noConfusion hv
    | ok u =>
      cases hw : validate_batch_seconds secs with
      | error e =>
        simp only [Stream.batch, hv, hw]
        constructor
        · intro hx; exact absurd hx (by simp)
        · intro hc
          rw [(validate_batch_seconds_ok secs).mpr hc.2] at hw
          exact Except.noConfusion hw
      | ok w =>
        simp only [Stream.batch, hv, hw]
        simpa using And.intro ((validate_batch_size_ok size).mp (by rw [hv]))
          ((validate_batch_seconds_ok secs).mp (by rw [hw]))
  · cases hv : validate_limit_count count with
    | error e =>
      simp only [Stream.limit, hv]
      constructor
      · intro hx; exact absurd hx (by simp)
      · intro hc
        rw [(validate_limit_count_ok count).mpr hc] at hv
        exact Except.noConfusion hv
    | ok u =>
      simp only [Stream.limit, hv]
      simpa using (validate_limit_count_ok count).mp (by rw [hv])
  · cases hv : validate_slow_frequency freq with
    | error e =>
      simp only [Stream.slow, hv]
      constructor
      · intro hx; exact absurd hx (by simp)
      · intro hc
        rw [(validate_slow_frequency_ok freq).mpr hc] at hv
        exact Except.noConfusion hv
    | ok u =>
      simp only [Stream.slow, hv]
      simpa using (validate_slow_frequency_ok freq).mp (by rw [hv])
  · intro h
    cases hv : validate_concurrency c with
    | error e => exact ⟨e, by simp [Stream.map, hv]⟩
    | ok u => exact absurd ((validate_concurrency_ok c).mp (by rw [hv])) h
  · intro h
    cases hv : validate_batch_size size with
    | error e => exact ⟨e, by simp [Stream.batch, hv]⟩
    | ok u =>
      cases hw : validate_batch_seconds secs with
      | error e => exact ⟨e, by simp [Stream.batch, hv, hw]⟩
      | ok w =>
        exact absurd ⟨(validate_batch_size_ok size).mp (by rw [hv]),
          (validate_batch_seconds_ok secs).mp (by rw [hw])⟩ h
  · intro h
    cases hv : validate_limit_count count with
    | error e => exact ⟨e, by simp [Stream.limit, hv]⟩
    | ok u => exact absurd ((validate_limit_count_ok count).mp (by rw [hv])) h
  · intro h
    cases hv : validate_slow_frequency freq with
    | error e => exact ⟨e, by simp [Stream.slow, hv]⟩
    | ok u => exact absurd ((validate_slow_frequency_ok freq).mp (by rw [hv])) h

/-- C9 witness: the limit builder with the in-range count 0 returns the node
and the map builder with concurrency 0 is rejected with a parameter error. -/
theorem C9_witness :
    Stream.limit (StreamNode.source PySource.callablef) (CountArg.fin 0)
      = Except.ok (StreamNode.limitNode (StreamNode.source PySource.callablef) (CountArg.fin 0)) :=
  ((C9_builders_validate_eagerly (StreamNode.source PySource.callablef)
      ConcArg.nonint 1 Seconds.infty (CountArg.fin 0) 1).2.2.2.2.1).mpr (by norm_num [specCountInRange])

theorem limitRunAux_eq_take {α : Type _} (count : Nat) (src : List α) (n : Nat) :
    limitRunAux count src n = src.take (count - n) := by
  induction src generalizing n with
  | nil => simp [limitRunAux]
  | cons a rest ih =>
    by_cases h : count ≤ n
    · have : count - n = 0 := by omega
      simp [limitRunAux, h, this]
    · have hstep : count - n = (count - (n + 1)) + 1 := by omega
      simp [limitRunAux, h, ih (n + 1), hstep]

/-- C4: the limit operator with count N over a finite upstream yields exactly
the first min(N, L) upstream elements, and its end-of-iteration is permanent:
whenever a call to `next` signals end-of-iteration it leaves the iterator
state unchanged, so every later call signals end-of-iteration again, even when
unconsumed upstream elements remain in the state. -/
theorem C4_limit_truncates {α : Type _} (count : Nat) (src : List α) :
    limitRun count src = src.take count
    ∧ (limitRun count src).length = min count src.length
    ∧ (∀ s : List α × Nat, (limitNext count s).1 = IterRes.stop →
        (limitNext count s).2 = s) := by
  have hrun : limitRun count src = src.take count := by
    simpa using limitRunAux_eq_take count src 0
  refine ⟨hrun, ?_, ?_⟩
  · rw [hrun]
    exact List.length_take count src
  · intro s h
    by_cases hc : count ≤ s.2
    · simp [limitNext, hc]
    · match hs : s.1 with
      | [] => simp [limitNext, hc, hs]
      | a :: rest => simp [limitNext, hc, hs] at h

/-- C4 witness: with count 2 over a three-element upstream only the first two
elements are yielded, and a stopped state at the end of the upstream is left
unchanged by a further call to `next`. -/
theorem C4_witness :
    limitRun 2 [10, 20, 30] = [10, 20]
    ∧ (limitNext 2 (([30], 2) : List Nat × Nat)).2 = ([30], 2) :=
  ⟨((C4_limit_truncates 2 [10, 20, 30]).1).trans (by decide),
    (C4_limit_truncates 2 [10, 20, 30]).2.2 ([30], 2) (by decide)⟩

/-- Event produced for one element by the fallible map function. -/
def eventOf {ε β : Type _} (r : Except ε β) : MapEvent ε β :=
  match r with
  | Except.ok b => MapEvent.yield b
  | Except.error e => MapEvent.raiseExc e

theorem mapRunE_eq_map {α ε β : Type _} (fn : α → Except ε β) (src : List α) :
    mapRunE fn src = src.map fun a => eventOf (fn a) := by
  induction src with
  | nil => simp [mapRunE]
  | cons a rest ih => simp [mapRunE, eventOf, ih]

/-- C2: if the element-processing function raises on the element at upstream
index i, that exception is raised to the consumer at position i of the output
event stream and no value is yielded there, while every succeeding element is
still processed: the trace has the same length as the upstream, the events
after position i are exactly the run over the remaining elements, and elements
the function accepts are yielded at their own positions. -/
theorem C2_map_exception_positions {α ε β : Type _} (fn : α → Except ε β) (src : List α) :
    (mapRunE fn src).length = src.length
    ∧ (∀ i a e, src.get? i = some a → fn a = Except.error e →
        (mapRunE fn src).get? i = some (MapEvent.raiseExc e))
    ∧ (∀ i a b, src.get? i = some a → fn a = Except.ok b →
        (mapRunE fn src).get? i = some (MapEvent.yield b))
    ∧ (∀ i, (mapRunE fn src).drop (i + 1) = mapRunE fn (src.drop (i + 1))) := by
  refine ⟨?_, ?_, ?_, ?_⟩
  · simp [mapRunE_eq_map]
  · intro i a e ha he
    have ha2 : src[i]? = some a := by simpa using ha
    simp [mapRunE_eq_map, ha2, eventOf, he]
  · intro i a b ha hb
    have ha2 : src[i]? = some a := by simpa using ha
    simp [mapRunE_eq_map, ha2, eventOf, hb]
  · intro i
    simp [mapRunE_eq_map, List.map_drop]

/-- C2 witness: with a function failing exactly on odd numbers, the event at
position 1 of the run over three elements is the raised exception, and the
events after it are the run over the remaining element. -/
theorem C2_witness :
    (mapRunE (fun n : Nat => if n % 2 == 1 then Except.error n else Except.ok (n * n))
        [0, 1, 2]).get? 1 = some (MapEvent.raiseExc 1)
    ∧ (mapRunE (fun n : Nat => if n % 2 == 1 then Except.error n else Except.ok (n * n))
        [0, 1, 2]).drop 2
      = mapRunE (fun n : Nat => if n % 2 == 1 then Except.error n else Except.ok (n * n)) [2] :=
  ⟨(C2_map_exception_positions _ [0, 1, 2]).2.1 1 1 1 (by decide) (by decide),
    (C2_map_exception_positions _ [0, 1, 2]).2.2.2 1⟩

theorem batchRunAux_join {α : Type _} (size : Nat) (src : List α) :
    ∀ buf : List α, buf.length < size → (batchRunAux size buf src).flatten = buf ++ src := by
  induction src with
  | nil =>
    intro buf hb
    cases buf with
    | nil => simp [batchRunAux]
    | cons b bs => simp [batchRunAux]
  | cons a rest ih =>
    intro buf hb
    by_cases h : size ≤ buf.length + 1
    · have h0 : ([] : List α).length < size := by
        simpa using Nat.lt_of_le_of_lt (Nat.zero_le buf.length) hb
      simp [batchRunAux, h, ih [] h0]
    · have hb2 : (buf ++ [a]).length < size := by
        simp only [List.length_append, List.length_singleton]
        omega
      simp [batchRunAux, h, ih (buf ++ [a]) hb2]

theorem batchRunAux_sizes {α : Type _} (size : Nat) (src : List α) :
    ∀ buf : List α, buf.length < size →
      (∀ g ∈ (batchRunAux size buf src).dropLast, g.length = size)
      ∧ (∀ g ∈ batchRunAux size buf src, g ≠ [] ∧ g.length ≤ size) := by
  induction src with
  | nil =>
    intro buf hb
    cases buf with
    | nil => simp [batchRunAux]
    | cons b bs =>
      constructor
      · simp [batchRunAux, List.dropLast]
      · intro g hg
        simp [batchRunAux] at hg
        subst hg
        exact ⟨by simp, Nat.le_of_lt hb⟩
  | cons a rest ih =>
    intro buf hb
    by_cases h : size ≤ buf.length + 1
    · have h0 : ([] : List α).length < size := by
        simpa using Nat.lt_of_le_of_lt (Nat.zero_le buf.length) hb
      have hlen : (buf ++ [a]).length = size := by
        simp only [List.length_append, List.length_singleton]
        omega
      obtain ⟨ihd, ihm⟩ := ih [] h0
      have hunfold : batchRunAux size buf (a :: rest)
          = (buf ++ [a]) :: batchRunAux size [] rest := by
        simp [batchRunAux, h]
      constructor
      · intro g hg
        rw [hunfold] at hg
        match htr : batchRunAux size [] rest with
        | [] =>
          rw [htr] at hg
          simp at hg
        | t :: ts =>
          rw [htr, List.dropLast_cons₂] at hg
          rcases List.mem_cons.mp hg with hg | hg
          · rw [hg]; exact hlen
          · exact ihd g (by rw [htr]; exact hg)
      · intro g hg
        rw [hunfold] at hg
        rcases List.mem_cons.mp hg with hg | hg
        · rw [hg]
          exact ⟨by simp, Nat.le_of_eq hlen⟩
        · exact ihm g hg
    · have hb2 : (buf ++ [a]).length < size := by
        simp only [List.length_append, List.length_singleton]
        omega
      obtain ⟨ihd, ihm⟩ := ih (buf ++ [a]) hb2
      have hunfold : batchRunAux size buf (a :: rest)
          = batchRunAux size (buf ++ [a]) rest := by
        simp [batchRunAux, h]
      constructor
      · intro g hg
        rw [hunfold] at hg
        exact ihd g hg
      · intro g hg
        rw [hunfold] at hg
        exact ihm g hg

/-- C5: the batch operator with size S and an infinite interval cuts the
upstream into groups that all have exactly S elements except possibly the
last one, every yielded group is non-empty with at most S elements, and the
concatenation of the yielded groups is exactly the upstream sequence. -/
theorem C5_batch_partition {α : Type _} (size : Nat) (src : List α) (h : 1 ≤ size) :
    (batchRun size src).flatten = src
    ∧ (∀ g ∈ (batchRun size src).dropLast, g.length = size)
    ∧ (∀ g ∈ batchRun size src, g ≠ [] ∧ g.length ≤ size) := by
  have h0 : ([] : List α).length < size := by simpa using h
  exact ⟨by simpa using batchRunAux_join size src [] h0,
    (batchRunAux_sizes size src [] h0).1,
    (batchRunAux_sizes size src [] h0).2⟩

/-- C5 witness: grouping six elements by size 4 yields a full group of 4 and a
final group of 2, whose concatenation is the upstream. -/
theorem C5_witness :
    1 ≤ 4 ∧ (batchRun 4 [0, 1, 2, 3, 4, 5]).flatten = [0, 1, 2, 3, 4, 5] :=
  ⟨by decide, (C5_batch_partition 4 [0, 1, 2, 3, 4, 5] (by decide)).1⟩

theorem batchRunExcAux_split {ε α : Type _} (size : Nat) (e : ε)
    (rest : List (Except ε α)) (vs : List α) :
    ∀ buf : List α, buf.length < size →
      batchRunExcAux size buf (vs.map Except.ok ++ Except.error e :: rest)
        = (batchRunAux size buf vs).map BatchEvent.grp
            ++ BatchEvent.raiseExc e :: batchRunExcAux size [] rest := by
  induction vs with
  | nil =>
    intro buf hb
    cases buf with
    | nil => simp [batchRunExcAux, batchRunAux]
    | cons b bs => simp [batchRunExcAux, batchRunAux]
  | cons a vs ih =>
    intro buf hb
    by_cases h : size ≤ buf.length + 1
    · have h0 : ([] : List α).length < size := by
        simpa using Nat.lt_of_le_of_lt (Nat.zero_le buf.length) hb
      simp [batchRunExcAux, batchRunAux, h, ih [] h0]
    · have hb2 : (buf ++ [a]).length < size := by
        simp only [List.length_append, List.length_singleton]
        omega
      simp [batchRunExcAux, batchRunAux, h, ih (buf ++ [a]) hb2]

/-- C6: when the upstream raises after yielding the values vs, the batch
operator first yields the groups formed from vs, ending with the currently
open group exactly when it is non-empty (the open group holds the oldest
buffered elements), then re-raises the upstream exception as the next event,
and afterwards resumes grouping the remaining upstream with a fresh empty
group; the concatenation of the groups formed from vs is vs itself, so no
buffered element accumulated before the exception is lost. -/
theorem C6_batch_exception_flush {ε α : Type _} (size : Nat) (vs : List α) (e : ε)
    (rest : List (Except ε α)) (h : 1 ≤ size) :
    batchRunExc size (vs.map Except.ok ++ Except.error e :: rest)
      = (batchRun size vs).map BatchEvent.grp
          ++ BatchEvent.raiseExc e :: batchRunExc size rest
    ∧ (batchRun size vs).flatten = vs := by
  have h0 : ([] : List α).length < size := by simpa using h
  exact ⟨batchRunExcAux_split size e rest vs [] h0,
    by simpa using batchRunAux_join size vs [] h0⟩

/-- C6 witness: with size 3, four buffered values and an exception, the trace
is the full group, the open group, the re-raised exception, then a fresh group
over the remaining upstream. -/
theorem C6_witness :
    batchRunExc 3 ([1, 2, 3, 4].map Except.ok ++ Except.error 9 :: [Except.ok 5])
      = [BatchEvent.grp [1, 2, 3], BatchEvent.grp [4], BatchEvent.raiseExc 9,
          BatchEvent.grp [5]] :=
  ((C6_batch_exception_flush 3 [1, 2, 3, 4] 9 [Except.ok 5] (by decide)).1).trans (by decide)

/-- Yield events for the successful pulls of an upstream, in order. -/
def okYields {ε α : Type _} : List (Except ε α) → List (CatchRes ε α) :=
  List.filterMap fun r =>
    match r with
    | Except.ok a => some (CatchRes.yield a)
    | Except.error _ => none

/-- Trailing raise event of the catch operator: one single raise when a
deferred exception is held, nothing otherwise. -/
def raiseTail {ε : Type _} (α : Type _) (o : Option ε) : List (CatchRes ε α) :=
  match o with
  | some e => [CatchRes.raiseExc e]
  | none => []

/-- The first exception the catch operator will defer: an already-held one, or
else the first error of the remaining upstream. -/
def firstOr {ε α : Type _} (fc : Option ε) (ups : List (Except ε α)) : Option ε :=
  match fc with
  | some e => some e
  | none => firstErr ups

theorem catchRun_congr {ε α : Type _} (p : ε → Bool) (fr : Bool)
    (ups1 ups2 : List (Except ε α)) (fc1 fc2 : Option ε)
    (h : catchNext p fr ups1 fc1 false = catchNext p fr ups2 fc2 false) :
    catchRun p fr (CatchState.mk ups1 fc1 false) = catchRun p fr (CatchState.mk ups2 fc2 false) := by
  rw [catchRun.eq_def, catchRun.eq_def]
  dsimp only
  rw [h]

theorem catchRun_trace {ε α : Type _} (ups : List (Except ε α)) :
    ∀ fc : Option ε,
      catchRun (fun _ => true) true (CatchState.mk ups fc false)
        = okYields ups ++ raiseTail α (firstOr fc ups) := by
  induction ups with
  | nil =>
    intro fc
    cases fc with
    | some e =>
      rw [catchRun.eq_def]
      simp only [catchNext]
      rw [catchRun.eq_def]
      simp [okYields, raiseTail, firstOr, firstErr]
    | none =>
      rw [catchRun.eq_def]
      simp only [catchNext]
      simp [okYields, raiseTail, firstOr, firstErr]
  | cons head rest ih =>
    intro fc
    cases head with
    | ok a =>
      rw [catchRun.eq_def]
      simp only [catchNext]
      rw [ih fc]
      simp [okYields, raiseTail, firstOr, firstErr]
    | error e =>
      have hstep : catchNext (fun _ => true) true (Except.error e :: rest) fc false
          = catchNext (fun _ => true) true rest (keepFirst fc e) false := by
        simp [catchNext]
      rw [catchRun_congr _ _ _ _ _ _ hstep, ih (keepFirst fc e)]
      cases fc with
      | some x => simp [okYields, raiseTail, firstOr, keepFirst, firstErr]
      | none => simp [okYields, raiseTail, firstOr, keepFirst, firstErr]

/-- C3: the catch operator absorbing every exception kind with
raise-at-exhaustion set yields exactly the non-exception upstream elements in
order, then, after upstream exhaustion, raises the first absorbed exception
exactly once as the final event of its trace (no trailing event when nothing
was absorbed); and once the iterator has signalled its definitive end, every
further call to `next` signals end-of-iteration again and leaves the state
terminal. -/
theorem C3_catch_finally_raise {ε α : Type _} (ups : List (Except ε α)) :
    catchRun (fun _ => true) true (CatchState.mk ups none false)
      = okYields ups ++ raiseTail α (firstErr ups)
    ∧ (∀ s : CatchState ε α, s.done = true →
        catchNext (fun _ => true) true s.ups s.firstCaught s.done
          = (CatchRes.stop, CatchState.mk s.ups s.firstCaught true)) := by
  constructor
  · have h := catchRun_trace ups (none : Option ε)
    simpa [firstOr] using h
  · intro s hs
    rw [hs]
    cases hu : s.ups with
    | nil => rfl
    | cons hd2 tl => cases hd2 <;> rfl

/-- C3 witness: over an upstream holding two leading exceptions, three values
and two more exceptions, the trace yields the three values then raises the
first absorbed exception, and a terminal state keeps signalling
end-of-iteration. -/
theorem C3_witness :
    catchRun (fun _ => true) true
        (CatchState.mk
          [Except.error 7, Except.error 8, Except.ok 1, Except.ok 2, Except.error 9,
            Except.ok 3, Except.error 6] none false)
      = [CatchRes.yield 1, CatchRes.yield 2, CatchRes.yield 3, CatchRes.raiseExc 7]
    ∧ catchNext (fun _ => true) true ([] : List (Except Nat Nat)) (some 7) true
      = (CatchRes.stop, CatchState.mk [] (some 7) true) :=
  ⟨((C3_catch_finally_raise _).1).trans (by decide),
    (C3_catch_finally_raise ([] : List (Except Nat Nat))).2 (CatchState.mk [] (some 7) true) rfl⟩

theorem get?_eq_getD_of_lt {α : Type _} (l : List α) (d : α) :
    ∀ k, k < l.length → l.get? k = some (l.getD k d) := by
  induction l with
  | nil => intro k hk; simp at hk
  | cons a t ih =>
    intro k hk
    cases k with
    | zero => rfl
    | succ m =>
      have hm : m < t.length := by simpa using hk
      simpa using ih m hm

theorem filterMap_eq_map_of_some {γ δ : Type _} (g : γ → Option δ) (h : γ → δ)
    (l : List γ) (hl : ∀ x ∈ l, g x = some (h x)) : l.filterMap g = l.map h := by
  induction l with
  | nil => simp
  | cons x xs ih =>
    rw [List.filterMap_cons, hl x (by simp), List.map_cons,
      ih fun y hy => hl y (List.mem_cons_of_mem x hy)]

theorem map_getD_range {α : Type _} (l : List α) (d : α) :
    (List.range l.length).map (fun k => l.getD k d) = l := by
  induction l with
  | nil => simp
  | cons a t ih =>
    rw [List.length_cons, List.range_succ_eq_map, List.map_cons, List.map_map]
    have hfun : ((fun k => (a :: t).getD k d) ∘ Nat.succ) = fun k => t.getD k d := by
      funext k
      simp [List.getD_cons_succ]
    rw [hfun, ih]
    rfl

theorem completionsOf_find {α β : Type _} (f : α → β) (src : List α) (order : List Nat)
    (k : Nat) (a : α) (ha : src.get? k = some a) :
    ∀ hk : k ∈ order,
      (completionsOf f src order).find? (fun pr => pr.1 == k) = some (k, f a) := by
  induction order with
  | nil => intro hk; cases hk
  | cons i rest ih =>
    intro hk
    by_cases hik : i = k
    · subst hik
      rw [completionsOf, List.filterMap_cons, ha]
      simp [List.find?]
    · have hk2 : k ∈ rest := by
        rcases List.mem_cons.mp hk with h | h
        · exact absurd h.symm hik
        · exact h
      have hbeq : (i == k) = false := by
        simpa using hik
      cases hgi : src.get? i with
      | none =>
        rw [completionsOf, List.filterMap_cons, hgi]
        exact ih hk2
      | some b =>
        rw [completionsOf, List.filterMap_cons, hgi]
        simp only [Option.map_some, List.find?, hbeq, cond_false]
        exact ih hk2

theorem deliverSeq_perm {α β : Type _} (f : α → β) (src : List α) (order : List Nat)
    (hperm : order.Perm (List.range src.length)) :
    deliverSeq src.length (completionsOf f src order) = src.map f := by
  cases src with
  | nil => simp [deliverSeq]
  | cons a0 t =>
    have hsome : ∀ k ∈ List.range (a0 :: t).length,
        ((completionsOf f (a0 :: t) order).find? (fun pr => pr.1 == k)).map Prod.snd
          = some (f ((a0 :: t).getD k a0)) := by
      intro k hk
      have hklt : k < (a0 :: t).length := List.mem_range.mp hk
      have hkorder : k ∈ order := (hperm.mem_iff).mpr hk
      rw [completionsOf_find f (a0 :: t) order k ((a0 :: t).getD k a0)
        (get?_eq_getD_of_lt (a0 :: t) a0 k hklt) hkorder]
      rfl
    rw [deliverSeq, filterMap_eq_map_of_some _ (fun k => f ((a0 :: t).getD k a0)) _ hsome]
    have hcomp : (List.range (a0 :: t).length).map (fun k => f ((a0 :: t).getD k a0))
        = ((List.range (a0 :: t).length).map fun k => (a0 :: t).getD k a0).map f := by
      rw [List.map_map]
      rfl
    rw [hcomp, map_getD_range]

/-- C1: the ordered concurrent map operator with any concurrency C of at least
1, run under any worker-completion schedule realizable with concurrency C that
completes every submitted element, delivers exactly the sequential map of the
function over the source: same values, same order. -/
theorem C1_ordered_concurrent_map {α β : Type _} (f : α → β) (C : Nat) (src : List α)
    (order : List Nat) (hC : 1 ≤ C) (hadm : admissibleB C order = true)
    (hperm : order.Perm (List.range src.length)) :
    orderedConcMap f C src order = some (src.map f) := by
  rw [orderedConcMap, if_pos ⟨hC, hadm⟩]
  exact congrArg some (deliverSeq_perm f src order hperm)

/-- C1 witness: with concurrency 2 and an out-of-order but admissible
completion schedule over four elements, the delivered output is the sequential
map of squaring. -/
theorem C1_witness :
    orderedConcMap (fun x : Nat => x * x) 2 [0, 1, 2, 3] [1, 0, 3, 2]
      = some ([0, 1, 2, 3].map fun x : Nat => x * x) :=
  C1_ordered_concurrent_map (fun x : Nat => x * x) 2 [0, 1, 2, 3] [1, 0, 3, 2]
    (by decide) (by decide) (by decide)

theorem poolReachable_invariant (C : Nat) (s : PoolState) (h : PoolReachable C s) :
    s.delivered ≤ s.nextCalls ∧ s.pulled ≤ s.delivered + C
      ∧ (s.nextCalls = 0 → s.pulled = 0) := by
  induction h with
  | init => exact ⟨Nat.le_refl 0, Nat.zero_le _, fun _ => rfl⟩
  | callNext hprev ih =>
    obtain ⟨h1, h2, h3⟩ := ih
    exact ⟨by dsimp only at *; omega, by dsimp only at *; omega,
      by dsimp only at *; omega⟩
  | pull hprev hn hb ih =>
    obtain ⟨h1, h2, h3⟩ := ih
    exact ⟨by dsimp only at *; omega, by dsimp only at *; omega,
      by dsimp only at *; omega⟩
  | deliver hprev ho hd ih =>
    obtain ⟨h1, h2, h3⟩ := ih
    exact ⟨by dsimp only at *; omega, by dsimp only at *; omega,
      by dsimp only at *; omega⟩

/-- C7: in every reachable state of the concurrent-operator runtime with
concurrency C, no upstream element has been pulled while the consumer has not
yet called `next`, and once the consumer has called `next` exactly once the
number of upstream elements pulled is at most C + 1. -/
theorem C7_prefetch_bound (C : Nat) (s : PoolState) (h : PoolReachable C s) :
    (s.nextCalls = 0 → s.pulled = 0) ∧ (s.nextCalls = 1 → s.pulled ≤ C + 1) := by
  obtain ⟨h1, h2, h3⟩ := poolReachable_invariant C s h
  exact ⟨h3, fun hone => by omega⟩

/-- C7 witness: with concurrency 2, the state reached by one `next` call, two
pulls, one delivery and one more pull is reachable, and its pull counter meets
the bound of three. -/
theorem C7_witness :
    PoolReachable 2 (PoolState.mk 3 1 1) ∧ (PoolState.mk 3 1 1).pulled ≤ 2 + 1 := by
  have hr : PoolReachable 2 (PoolState.mk 3 1 1) :=
    PoolReachable.pull
      (PoolReachable.deliver
        (PoolReachable.pull
          (PoolReachable.pull (PoolReachable.callNext PoolReachable.init)
            (by decide) (by decide))
          (by decide) (by decide))
        (by decide) (by decide))
      (by decide) (by decide)
  exact ⟨hr, (C7_prefetch_bound 2 (PoolState.mk 3 1 1) hr).2 rfl⟩

end Streamable
